import Mathlib

/-!
Shallow embedding of `src/trie_node.rs`: a binary trie keyed by the bit
pattern of an unsigned integer, with a per-node payload and a lazily
memoized, insert-invalidated Merkle digest.

Modelling conventions:
* The Rust struct `TrieNode<T>` has `maybe_data : Option<T>`,
  `children : [Option<Box<TrieNode<T>>>; 2]` and
  `maybe_cached_merkle_root : Option<String>`.  The two-element child
  array is modelled as the two fields `l` (index 0) and `r` (index 1),
  with `childAt` recovering the `children[i]` indexing.
* `u32` keys are modelled as `Nat` (every theorem quantified over all of
  `Nat` in particular covers all 32-bit values).
* The payload type parameter `T : ToString` is modelled as a type `α`
  together with an explicit rendering function `toStr : α → String`.
* `DefaultHasher` (hash a string, `finish`, render the 64-bit result as a
  string) is modelled as an abstract deterministic function
  `H : String → String`, matching the spec's "fixed deterministic hash
  rendered as a string".
-/

set_option autoImplicit false

namespace RustTrie

universe u

/-- The `TrieNode<T>` struct: payload, the two child slots (`l` = index 0,
`r` = index 1 of the Rust `children` array) and the memoized digest. -/
inductive TrieNode (α : Type u) : Type u where
  | node (maybe_data : Option α) (l r : Option (TrieNode α))
      (maybe_cached_merkle_root : Option String)

namespace TrieNode

variable {α : Type u}

/-- Projection for the `maybe_data` field. -/
def maybe_data : TrieNode α → Option α
  | node d _ _ _ => d

/-- Projection for child slot 0 of the `children` array. -/
def left : TrieNode α → Option (TrieNode α)
  | node _ l _ _ => l

/-- Projection for child slot 1 of the `children` array. -/
def right : TrieNode α → Option (TrieNode α)
  | node _ _ r _ => r

/-- Projection for the `maybe_cached_merkle_root` field. -/
def cache : TrieNode α → Option String
  | node _ _ _ c => c

/-- The Rust indexing `children[i]` (only ever reached with `i < 2`;
see the checked variants below for the bounds obligation). -/
def childAt (t : TrieNode α) (i : Nat) : Option (TrieNode α) :=
  if i = 1 then t.right else t.left

/-- Assignment `children[i] = x`. -/
def setChild : TrieNode α → Nat → Option (TrieNode α) → TrieNode α
  | node d l r c, i, x => if i = 1 then node d l x c else node d x r c

/-- Assignment `maybe_cached_merkle_root = c`. -/
def setCache : TrieNode α → Option String → TrieNode α
  | node d l r _, c => node d l r c

/-- `set_data`: overwrite the payload with `Some data`. -/
def set_data : TrieNode α → α → TrieNode α
  | node _ l r c, d => node (some d) l r c

/-- `get_data`: read the payload. -/
def get_data (t : TrieNode α) : Option α :=
  t.maybe_data

/-- `TrieNode::new()` — the `Default` instance: no payload, no children,
no cached digest. -/
def new : TrieNode α := node none none none none

/-- `TrieNode::new_with(data)`. -/
def new_with (d : α) : TrieNode α := node (some d) none none none

/-- Rendering of `format!("{key:b}")` as a character list: the minimal
binary representation of `key`, most-significant digit first, `['0']`
for `key = 0`. -/
def binString (n : Nat) : List Char :=
  if _h : n < 2 then [if n = 1 then '1' else '0']
  else binString (n / 2) ++ [if n % 2 = 1 then '1' else '0']
  termination_by n
  decreasing_by exact Nat.div_lt_self (by omega) (by omega)

/-- Model of `str::parse::<u8>` on a one-character slice: a decimal digit
parses to its value, anything else fails. -/
def parseDigit (c : Char) : Option Nat :=
  if '0' ≤ c ∧ c ≤ '9' then some (c.toNat - 48) else none

/-- `path_to_node(key)`: format the key in binary, split into single
characters and parse each to a number.  The `unwrap` of the parse is
modelled by `Option.getD` (the checked variant below shows the parse
never fails). -/
def path_to_node (key : Nat) : List Nat :=
  (binString key).map fun c => (parseDigit c).getD 0

/-- The loop of `find_by_key`, recursing on the decreasing `index`.
`path[index]` selects the child; at `index = 0` the reached child is
returned, otherwise the walk descends (returning `None` when the child
slot is empty, as the `while let` loop then terminates). -/
def findLoop (path : List Nat) : Nat → TrieNode α → Option (TrieNode α)
  | 0, n => n.childAt (path.getD 0 0)
  | index + 1, n =>
    match n.childAt (path.getD (index + 1) 0) with
    | none => none
    | some next => findLoop path index next

/-- `find_by_key(key)`: walk the node's subtree along the key's path,
starting at `index = length - 1`. -/
def find_by_key (t : TrieNode α) (key : Nat) : Option (TrieNode α) :=
  let path := path_to_node key
  findLoop path (path.length - 1) t

/-- `insert_recurse(node, data, path_to_node, index)`: clear the node's
cached digest, pick the child slot from `path_to_node[index]`; at
`index = 0` write the payload into the (possibly fresh) child, otherwise
make sure the child exists and recurse into it.  The `unwrap` of the
just-ensured child is modelled by `Option.getD` (the checked variant
below shows it never fails). -/
def insert_recurse (data : α) (path : List Nat) : Nat → TrieNode α → TrieNode α
  | 0, n =>
    let n := n.setCache none
    let i : Nat := if path.getD 0 0 = 1 then 1 else 0
    match n.childAt i with
    | some child => n.setChild i (some ((child.setCache none).set_data data))
    | none => n.setChild i (some (new_with data))
  | index + 1, n =>
    let n := n.setCache none
    let i : Nat := if path.getD (index + 1) 0 = 1 then 1 else 0
    let n := if (n.childAt i).isNone then n.setChild i (some new) else n
    n.setChild i (some (insert_recurse data path index ((n.childAt i).getD new)))

/-- `insert(key, data)`: compute the path and run `insert_recurse` from
`index = length - 1`. -/
def insert (t : TrieNode α) (key : Nat) (data : α) : TrieNode α :=
  let path := path_to_node key
  insert_recurse data path (path.length - 1) t

section Digest

variable (toStr : α → String) (H : String → String)

mutual

/-- `merkle_root(&mut self)`: on a cache hit return the cached digest and
leave the node untouched; otherwise hash the rendered payload (empty
string when absent), return it directly for a leaf, and for an inner node
combine it with the two child digests by text concatenation and hash
again; in both computing branches the result is stored in
`maybe_cached_merkle_root`.  The Rust method mutates `self`; the model
returns the digest together with the updated node. -/
def merkle_root : TrieNode α → String × TrieNode α
  | node d l r mc =>
    match mc with
    | some cached => (cached, node d l r (some cached))
    | none =>
      let data := (d.map toStr).getD ""
      let hash_of_data := H data
      match l, r with
      | none, none => (hash_of_data, node d none none (some hash_of_data))
      | l, r =>
        let pl := merkleChild l
        let pr := merkleChild r
        let hashes : List String := [pl.1, pr.1]
        let hash_of_left := hashes.getD 0 ""
        let hash_of_right := hashes.getD 1 ""
        let hash := H (hash_of_data ++ hash_of_left ++ hash_of_right)
        (hash, node d pl.2 pr.2 (some hash))

/-- The closure mapped over `children` in `merkle_root`: a present child
contributes its recursively computed digest, an absent child contributes
the hash of the empty string. -/
def merkleChild : Option (TrieNode α) → String × Option (TrieNode α)
  | none => (H "", none)
  | some c =>
    let p := merkle_root c
    (p.1, some p.2)

end

mutual

/-- Specification-side digest, written from the spec's words (§4.4): the
pure, cache-ignoring recursive digest of the tree's payloads and
structure alone.  `merkle_root` is proved to refine this function. -/
def specRoot : TrieNode α → String
  | node d l r _ =>
    if l.isNone ∧ r.isNone then H ((d.map toStr).getD "")
    else H (H ((d.map toStr).getD "") ++ specChild l ++ specChild r)

/-- Specification-side digest of a child slot: `H ""` when absent. -/
def specChild : Option (TrieNode α) → String
  | none => H ""
  | some c => specRoot c

end

mutual

/-- Cache validity (spec §3 invariant): every node whose
`maybe_cached_merkle_root` is `some c` has `c` equal to the pure digest
of its current subtree, recursively at every node. -/
def cacheOk : TrieNode α → Bool
  | node d l r mc =>
    (match mc with
     | none => true
     | some c => c == specRoot toStr H (node d l r mc)) &&
    cacheOkChild l && cacheOkChild r

/-- Cache validity of a child slot. -/
def cacheOkChild : Option (TrieNode α) → Bool
  | none => true
  | some c => cacheOk c

end

end Digest

mutual

/-- Erase every cached digest in the tree, leaving payloads and structure:
two trees with equal `stripCache` images have the same observable content. -/
def stripCache : TrieNode α → TrieNode α
  | node d l r _ => node d (stripCacheChild l) (stripCacheChild r) none

/-- Erase every cached digest below a child slot. -/
def stripCacheChild : Option (TrieNode α) → Option (TrieNode α)
  | none => none
  | some c => some (stripCache c)

end

mutual

/-- Cache evolution order: same payloads, same tree shape, and every
already-present cached digest is kept unchanged (a cache may only go from
`none` to `some`, never change or disappear). -/
def cacheLe : TrieNode α → TrieNode α → Prop
  | node d l r mc, node d' l' r' mc' =>
    d = d' ∧ cacheLeChild l l' ∧ cacheLeChild r r' ∧
      (∀ c, mc = some c → mc' = some c)

/-- Cache evolution order on a child slot: shape must be preserved. -/
def cacheLeChild : Option (TrieNode α) → Option (TrieNode α) → Prop
  | none, none => True
  | some a, some b => cacheLe a b
  | some _, none => False
  | none, some _ => False

end

/-- Descent along an explicit child-index list, consuming the head first:
`lookupPath t p` is the node reached from `t` by taking child `p[0]`,
then `p[1]`, and so on, or `none` as soon as a slot is empty. -/
def lookupPath : TrieNode α → List Nat → Option (TrieNode α)
  | t, [] => some t
  | t, b :: bs =>
    match t.childAt b with
    | none => none
    | some c => lookupPath c bs

/-- List-based reformulation of `insert_recurse`, consuming the child
indices head-first (so it is run on the reversed `path_to_node` list);
proved equal to `insert_recurse` below. -/
def insertPath (data : α) : List Nat → TrieNode α → TrieNode α
  | [], t => t
  | [b], t =>
    let t := t.setCache none
    let i : Nat := if b = 1 then 1 else 0
    match t.childAt i with
    | some child => t.setChild i (some ((child.setCache none).set_data data))
    | none => t.setChild i (some (new_with data))
  | b :: bs@(_ :: _), t =>
    let t := t.setCache none
    let i : Nat := if b = 1 then 1 else 0
    match t.childAt i with
    | some child => t.setChild i (some (insertPath data bs child))
    | none => t.setChild i (some (insertPath data bs new))

/-- Every cached digest along a child-index list is unset, from the node
itself through the node addressed by the full list (which must exist). -/
def pathCleared : TrieNode α → List Nat → Bool
  | t, [] => t.cache.isNone
  | t, b :: bs =>
    t.cache.isNone &&
      match t.childAt b with
      | none => false
      | some c => pathCleared c bs

/-- Two index lists diverge when they disagree at some position that both
possess — equivalently, neither is an initial segment of the other. -/
def divergesFrom : List Nat → List Nat → Bool
  | a :: p, b :: q => a != b || divergesFrom p q
  | _, _ => false

/-- `p` is an initial segment of `q` (used to state the spec's
"prefix-related" condition on forward bit strings). -/
def initSeg (p q : List Nat) : Bool :=
  q.take p.length == p

/-! Checked variants: the same four operations with every Rust panic
point made explicit — `str::parse::<u8>().unwrap()`, slice indexing
`path_to_node[index]` and `children[i]`, the `length - 1` underflow,
`hashes.get(0/1).unwrap()` and the `unwrap` of the just-ensured child all
return `none` instead of panicking.  Claim C9 is that each checked
variant always returns `some` of the total model's result. -/

/-- `path_to_node` with the per-character `parse::<u8>().unwrap()`
modelled as a fallible step. -/
def path_to_node_checked (key : Nat) : Option (List Nat) :=
  (binString key).mapM parseDigit

/-- The loop of `find_by_key` with explicit bounds checks on
`path_to_node[index]` and `children[child_number]`. -/
def findLoopChecked (path : List Nat) : Nat → TrieNode α → Option (Option (TrieNode α))
  | 0, n =>
    match path.get? 0 with
    | none => none
    | some b => if b < 2 then some (n.childAt b) else none
  | index + 1, n =>
    match path.get? (index + 1) with
    | none => none
    | some b =>
      if b < 2 then
        match n.childAt b with
        | none => some none
        | some next => findLoopChecked path index next
      else none

/-- `find_by_key` with every panic point explicit (including the
`length - 1` computation on an empty path). -/
def find_by_key_checked (t : TrieNode α) (key : Nat) : Option (Option (TrieNode α)) :=
  match path_to_node_checked key with
  | none => none
  | some path =>
    if path.length = 0 then none
    else findLoopChecked path (path.length - 1) t

/-- `insert_recurse` with explicit checks on `path_to_node[index]`,
`children[index_of_child]` and the `unwrap` of the just-ensured child. -/
def insertRecurseChecked (data : α) (path : List Nat) : Nat → TrieNode α → Option (TrieNode α)
  | 0, n =>
    let n := n.setCache none
    match path.get? 0 with
    | none => none
    | some b =>
      let i : Nat := if b = 1 then 1 else 0
      some (match n.childAt i with
        | some child => n.setChild i (some ((child.setCache none).set_data data))
        | none => n.setChild i (some (new_with data)))
  | index + 1, n =>
    let n := n.setCache none
    match path.get? (index + 1) with
    | none => none
    | some b =>
      let i : Nat := if b = 1 then 1 else 0
      let n := if (n.childAt i).isNone then n.setChild i (some new) else n
      match n.childAt i with
      | none => none
      | some child =>
        match insertRecurseChecked data path index child with
        | none => none
        | some sub => some (n.setChild i (some sub))

/-- `insert` with every panic point explicit. -/
def insertChecked (t : TrieNode α) (key : Nat) (data : α) : Option (TrieNode α) :=
  match path_to_node_checked key with
  | none => none
  | some path =>
    if path.length = 0 then none
    else insertRecurseChecked data path (path.length - 1) t

section DigestChecked

variable (toStr : α → String) (H : String → String)

mutual

/-- `merkle_root` with the two `hashes.get(_).unwrap()` calls made
explicit. -/
def merkleRootChecked : TrieNode α → Option (String × TrieNode α)
  | node d l r mc =>
    match mc with
    | some cached => some (cached, node d l r (some cached))
    | none =>
      let data := (d.map toStr).getD ""
      let hash_of_data := H data
      match l, r with
      | none, none => some (hash_of_data, node d none none (some hash_of_data))
      | l, r =>
        match merkleChildChecked l, merkleChildChecked r with
        | some pl, some pr =>
          let hashes : List String := [pl.1, pr.1]
          match hashes.get? 0, hashes.get? 1 with
          | some hash_of_left, some hash_of_right =>
            let hash := H (hash_of_data ++ hash_of_left ++ hash_of_right)
            some (hash, node d pl.2 pr.2 (some hash))
          | _, _ => none
        | _, _ => none

/-- Checked digest of a child slot. -/
def merkleChildChecked : Option (TrieNode α) → Option (String × Option (TrieNode α))
  | none => some (H "", none)
  | some c =>
    match merkleRootChecked c with
    | none => none
    | some p => some (p.1, some p.2)

end

/-- The tree states reachable from the empty tree by `insert` and
`merkle_root` calls. -/
inductive Reachable : TrieNode α → Prop where
  | empty : Reachable new
  | insertStep (key : Nat) (v : α) {t : TrieNode α} :
      Reachable t → Reachable (insert t key v)
  | merkleStep {t : TrieNode α} :
      Reachable t → Reachable (merkle_root toStr H t).2

end DigestChecked

mutual

/-- Induction principle for the nested inductive `TrieNode`, with an
auxiliary motive `Q` for child slots. -/
def indT (P : TrieNode α → Prop) (Q : Option (TrieNode α) → Prop)
    (hn : ∀ d l r mc, Q l → Q r → P (node d l r mc))
    (h0 : Q none) (hs : ∀ t, P t → Q (some t)) :
    ∀ t : TrieNode α, P t
  | node d l r mc => hn d l r mc (indChild P Q hn h0 hs l) (indChild P Q hn h0 hs r)

/-- Child-slot part of `indT`. -/
def indChild (P : TrieNode α → Prop) (Q : Option (TrieNode α) → Prop)
    (hn : ∀ d l r mc, Q l → Q r → P (node d l r mc))
    (h0 : Q none) (hs : ∀ t, P t → Q (some t)) :
    ∀ o : Option (TrieNode α), Q o
  | none => h0
  | some t => hs t (indT P Q hn h0 hs t)

end

/-! ### Basic lemmas about the node accessors -/

@[simp] theorem cache_setCache (t : TrieNode α) (c : Option String) :
    (t.setCache c).cache = c := by
  cases t; rfl

@[simp] theorem data_setCache (t : TrieNode α) (c : Option String) :
    (t.setCache c).maybe_data = t.maybe_data := by
  cases t; rfl

@[simp] theorem childAt_setCache (t : TrieNode α) (c : Option String) (i : Nat) :
    (t.setCache c).childAt i = t.childAt i := by
  cases t; simp [setCache, childAt, left, right]

@[simp] theorem cache_setChild (t : TrieNode α) (i : Nat) (x : Option (TrieNode α)) :
    (t.setChild i x).cache = t.cache := by
  cases t with
  | node d l r c => simp only [setChild]; split <;> rfl

@[simp] theorem data_setChild (t : TrieNode α) (i : Nat) (x : Option (TrieNode α)) :
    (t.setChild i x).maybe_data = t.maybe_data := by
  cases t with
  | node d l r c => simp only [setChild]; split <;> rfl

@[simp] theorem childAt_setChild_self (t : TrieNode α) (i : Nat) (x : Option (TrieNode α)) :
    (t.setChild i x).childAt i = x := by
  cases t with
  | node d l r c =>
    simp only [setChild, childAt]
    split <;> simp_all [left, right]

/-- Reading through the normalized index `if b = 1 then 1 else 0` reads
the same slot as `childAt b`. -/
theorem childAt_norm (t : TrieNode α) (b : Nat) :
    t.childAt (if b = 1 then 1 else 0) = t.childAt b := by
  by_cases hb : b = 1 <;> simp [childAt, hb]

/-- The child slot written through the normalized index
`if b = 1 then 1 else 0` is exactly the slot `childAt b` reads. -/
theorem childAt_setChild_norm (t : TrieNode α) (b : Nat) (x : Option (TrieNode α)) :
    (t.setChild (if b = 1 then 1 else 0) x).childAt b = x := by
  cases t with
  | node d l r c =>
    by_cases hb : b = 1 <;> simp [setChild, childAt, hb, left, right]

/-- Writing through the normalized index of `a` does not change the slot
`childAt b` reads when `a` and `b` are different bits. -/
theorem childAt_setChild_norm_ne (t : TrieNode α) (a b : Nat) (x : Option (TrieNode α))
    (ha : a < 2) (hb : b < 2) (hab : a ≠ b) :
    (t.setChild (if a = 1 then 1 else 0) x).childAt b = t.childAt b := by
  cases t with
  | node d l r c =>
    interval_cases a <;> interval_cases b <;> simp_all [setChild, childAt, left, right]

@[simp] theorem setChild_setChild (t : TrieNode α) (i : Nat) (x y : Option (TrieNode α)) :
    (t.setChild i y).setChild i x = t.setChild i x := by
  cases t with
  | node d l r c => by_cases hi : i = 1 <;> simp [setChild, hi]

@[simp] theorem cache_new : (new : TrieNode α).cache = none := rfl
@[simp] theorem data_new : (new : TrieNode α).maybe_data = none := rfl
@[simp] theorem childAt_new (i : Nat) : (new : TrieNode α).childAt i = none := by
  simp [new, childAt, left, right]

@[simp] theorem cache_new_with (d : α) : (new_with d).cache = none := rfl
@[simp] theorem data_new_with (d : α) : (new_with d).maybe_data = some d := rfl
@[simp] theorem childAt_new_with (d : α) (i : Nat) : (new_with d).childAt i = none := by
  simp [new_with, childAt, left, right]

/-! ### Facts about the path encoding -/

theorem binString_ne_nil (n : Nat) : binString n ≠ [] := by
  rw [binString]
  split
  · simp
  · simp

theorem mem_binString (n : Nat) : ∀ c ∈ binString n, c = '0' ∨ c = '1' := by
  induction n using Nat.strong_induction_on with
  | _ n ih =>
    rw [binString]
    split
    · intro c hc
      rcases List.mem_singleton.mp hc with rfl
      split <;> simp
    · intro c hc
      rcases List.mem_append.mp hc with h | h
      · exact ih (n / 2) (Nat.div_lt_self (by omega) (by omega)) c h
      · rcases List.mem_singleton.mp h with rfl
        split <;> simp

theorem path_to_node_ne_nil (key : Nat) : path_to_node key ≠ [] := by
  simp [path_to_node, binString_ne_nil]

theorem length_path_to_node_pos (key : Nat) : 1 ≤ (path_to_node key).length :=
  List.length_pos.mpr (path_to_node_ne_nil key)

theorem mem_path_to_node (key : Nat) : ∀ b ∈ path_to_node key, b = 0 ∨ b = 1 := by
  intro b hb
  simp only [path_to_node, List.mem_map] at hb
  obtain ⟨c, hc, rfl⟩ := hb
  rcases mem_binString key c hc with rfl | rfl
  · left; rfl
  · right; rfl

theorem mem_path_to_node_lt_two (key : Nat) : ∀ b ∈ path_to_node key, b < 2 := by
  intro b hb
  rcases mem_path_to_node key b hb with rfl | rfl <;> omega

theorem length_binString (n : Nat) (hn : 1 ≤ n) :
    (binString n).length = Nat.log2 n + 1 := by
  induction n using Nat.strong_induction_on with
  | _ n ih =>
    rw [binString]
    split
    · have : n = 1 := by omega
      subst this
      simp [Nat.log2]
    · rename_i h
      have h2 : 2 ≤ n := by omega
      rw [List.length_append, ih (n / 2) (Nat.div_lt_self (by omega) (by omega)) (by omega)]
      conv_rhs => rw [Nat.log2]
      simp [h2]

theorem length_path_to_node (key : Nat) (h : 1 ≤ key) :
    (path_to_node key).length = Nat.log2 key + 1 := by
  simp [path_to_node, length_binString key h]

theorem head_binString (n : Nat) (hn : 1 ≤ n) : (binString n).head? = some '1' := by
  induction n using Nat.strong_induction_on with
  | _ n ih =>
    rw [binString]
    split
    · have : n = 1 := by omega
      subst this
      rfl
    · rw [List.head?_append_of_ne_nil _ (binString_ne_nil (n / 2))]
      exact ih (n / 2) (Nat.div_lt_self (by omega) (by omega)) (by omega)

theorem head_path_to_node (key : Nat) (h : 1 ≤ key) :
    (path_to_node key).head? = some 1 := by
  rw [path_to_node, List.head?_map, head_binString key h]
  rfl

theorem foldl_binString (n : Nat) :
    ∀ a : Nat,
      (binString n).foldl (fun x c => 2 * x + (parseDigit c).getD 0) a =
        a * 2 ^ (binString n).length + n := by
  induction n using Nat.strong_induction_on with
  | _ n ih =>
    intro a
    rw [binString]
    split
    · rename_i h
      by_cases h1 : n = 1 <;> simp [h1, parseDigit] <;> omega
    · rename_i h
      rw [List.foldl_append, ih (n / 2) (Nat.div_lt_self (by omega) (by omega)) a,
        List.length_append]
      have hmod : (parseDigit (if n % 2 = 1 then '1' else '0')).getD 0 = n % 2 := by
        by_cases h1 : n % 2 = 1
        · simp [h1, parseDigit]
        · simp [h1, parseDigit]
          omega
      simp only [List.foldl_cons, List.foldl_nil, hmod, List.length_cons, List.length_nil]
      have := Nat.div_add_mod n 2
      ring_nf
      omega

/-- The path, read most-significant bit first, evaluates back to the key. -/
theorem foldl_path_to_node (key : Nat) :
    (path_to_node key).foldl (fun a b => 2 * a + b) 0 = key := by
  rw [path_to_node, List.foldl_map, foldl_binString key 0]
  omega

/-! ### Bridges between the index-based loops and head-first descent -/

theorem take_one_of_lt (path : List Nat) (h : 0 < path.length) :
    path.take 1 = [path.getD 0 0] := by
  rw [List.getD_eq_getElem path 0 h, ← List.take_concat_get' path 0 h]
  simp

theorem take_succ_reverse (path : List Nat) (index : Nat) (h : index + 1 < path.length) :
    (path.take (index + 2)).reverse =
      path.getD (index + 1) 0 :: (path.take (index + 1)).reverse := by
  rw [List.getD_eq_getElem path 0 h, ← List.take_concat_get' path (index + 1) h,
    List.reverse_append]
  simp

theorem findLoop_eq_lookupPath (path : List Nat) :
    ∀ (index : Nat) (t : TrieNode α), index < path.length →
      findLoop path index t = lookupPath t ((path.take (index + 1)).reverse) := by
  intro index
  induction index with
  | zero =>
    intro t h
    rw [take_one_of_lt path h]
    simp only [findLoop, List.reverse_singleton, lookupPath]
    cases t.childAt (path.getD 0 0) <;> rfl
  | succ index ih =>
    intro t h
    rw [take_succ_reverse path index h]
    simp only [findLoop, lookupPath]
    cases t.childAt (path.getD (index + 1) 0) with
    | none => rfl
    | some next => exact ih next (by omega)

/-- `find_by_key` descends by consuming the key's bit path in reverse:
least-significant bit first. -/
theorem find_by_key_eq_lookupPath (t : TrieNode α) (key : Nat) :
    find_by_key t key = lookupPath t ((path_to_node key).reverse) := by
  have h1 : 1 ≤ (path_to_node key).length := length_path_to_node_pos key
  show findLoop (path_to_node key) ((path_to_node key).length - 1) t = _
  rw [findLoop_eq_lookupPath (path_to_node key) _ t (by omega)]
  have : (path_to_node key).length - 1 + 1 = (path_to_node key).length := by omega
  rw [this, List.take_length]

theorem insertRecurse_eq_insertPath (data : α) (path : List Nat) :
    ∀ (index : Nat) (t : TrieNode α), index < path.length →
      insert_recurse data path index t =
        insertPath data ((path.take (index + 1)).reverse) t := by
  intro index
  induction index with
  | zero =>
    intro t h
    rw [take_one_of_lt path h, List.reverse_singleton]
    simp only [insert_recurse, insertPath]
  | succ index ih =>
    intro t h
    rw [take_succ_reverse path index h]
    have hne : (path.take (index + 1)).reverse ≠ [] := by
      simp only [ne_eq, List.reverse_eq_nil_iff]
      intro hnil
      have hlen := congrArg List.length hnil
      rw [List.length_take] at hlen
      simp only [List.length_nil] at hlen
      omega
    obtain ⟨x, xs, hxs⟩ := List.exists_cons_of_ne_nil hne
    rw [hxs]
    simp only [insert_recurse, insertPath]
    cases hc : (t.setCache none).childAt
        (if path.getD (index + 1) 0 = 1 then 1 else 0) with
    | some child =>
      simp only [hc, Option.isNone_some, Bool.false_eq_true, if_false, Option.getD_some]
      rw [ih child (by omega), hxs]
    | none =>
      simp only [hc, Option.isNone_none, if_true, childAt_setChild_self, Option.getD_some,
        setChild_setChild]
      rw [ih new (by omega), hxs]

/-- `insert` descends by consuming the key's bit path in reverse:
least-significant bit first. -/
theorem insert_eq_insertPath (t : TrieNode α) (key : Nat) (data : α) :
    insert t key data = insertPath data ((path_to_node key).reverse) t := by
  have h1 : 1 ≤ (path_to_node key).length := length_path_to_node_pos key
  show insert_recurse data (path_to_node key) ((path_to_node key).length - 1) t = _
  rw [insertRecurse_eq_insertPath data (path_to_node key) _ t (by omega)]
  have : (path_to_node key).length - 1 + 1 = (path_to_node key).length := by omega
  rw [this, List.take_length]

/-! ### Interaction of head-first insertion and lookup -/

@[simp] theorem data_set_data (t : TrieNode α) (v : α) :
    (t.set_data v).maybe_data = some v := by
  cases t; rfl

@[simp] theorem cache_set_data (t : TrieNode α) (v : α) :
    (t.set_data v).cache = t.cache := by
  cases t; rfl

@[simp] theorem childAt_set_data (t : TrieNode α) (v : α) (i : Nat) :
    (t.set_data v).childAt i = t.childAt i := by
  cases t; simp [set_data, childAt, left, right]

/-- After inserting along a non-empty index list, looking the same list up
reaches a node whose payload is the inserted value. -/
theorem lookupPath_insertPath_self (v : α) :
    ∀ (p : List Nat) (t : TrieNode α), p ≠ [] →
      (lookupPath (insertPath v p t) p).map get_data = some (some v) := by
  intro p
  induction p with
  | nil => intro t h; exact absurd rfl h
  | cons b bs ih =>
    intro t _
    cases bs with
    | nil =>
      simp only [insertPath]
      cases hc : (t.setCache none).childAt (if b = 1 then 1 else 0) with
      | some child =>
        simp only [hc, lookupPath, childAt_setChild_norm]
        simp [get_data]
      | none =>
        simp only [hc, lookupPath, childAt_setChild_norm]
        simp [get_data]
    | cons c cs =>
      simp only [insertPath]
      cases hc : (t.setCache none).childAt (if b = 1 then 1 else 0) with
      | some child =>
        simp only [hc, lookupPath, childAt_setChild_norm]
        exact ih child (by simp)
      | none =>
        simp only [hc, lookupPath, childAt_setChild_norm]
        exact ih new (by simp)

/-- Looking up a diverging index list in a subtree freshly built by
insertion finds nothing. -/
theorem lookupPath_insertPath_new (v : α) :
    ∀ (p q : List Nat), divergesFrom p q = true →
      (∀ b ∈ p, b < 2) → (∀ b ∈ q, b < 2) →
      lookupPath (insertPath v p new) q = none := by
  intro p
  induction p with
  | nil => intro q hd _ _; simp [divergesFrom] at hd
  | cons a p' ih =>
    intro q hd hp hq
    cases q with
    | nil => simp [divergesFrom] at hd
    | cons b q' =>
      by_cases hab : a = b
      · subst hab
        have hd' : divergesFrom p' q' = true := by
          simpa [divergesFrom] using hd
        cases p' with
        | nil => simp [divergesFrom] at hd'
        | cons c cs =>
          simp only [insertPath, childAt_setCache, childAt_new, lookupPath,
            childAt_setChild_norm]
          exact ih q' hd' (fun x hx => hp x (List.mem_cons_of_mem _ hx))
            (fun x hx => hq x (List.mem_cons_of_mem _ hx))
      · have ha2 : a < 2 := hp a (List.mem_cons_self _ _)
        have hb2 : b < 2 := hq b (List.mem_cons_self _ _)
        cases p' with
        | nil =>
          simp only [insertPath, childAt_setCache, childAt_new, lookupPath]
          rw [childAt_setChild_norm_ne _ a b _ ha2 hb2 hab, childAt_setCache, childAt_new]
        | cons c cs =>
          simp only [insertPath, childAt_setCache, childAt_new, lookupPath]
          rw [childAt_setChild_norm_ne _ a b _ ha2 hb2 hab, childAt_setCache, childAt_new]

/-- Frame property: inserting along `p` does not change what lookup sees
along any index list `q` that diverges from `p`. -/
theorem lookupPath_insertPath_frame (v : α) :
    ∀ (p q : List Nat) (t : TrieNode α), divergesFrom p q = true →
      (∀ b ∈ p, b < 2) → (∀ b ∈ q, b < 2) →
      lookupPath (insertPath v p t) q = lookupPath t q := by
  intro p
  induction p with
  | nil => intro q t hd _ _; simp [divergesFrom] at hd
  | cons a p' ih =>
    intro q t hd hp hq
    cases q with
    | nil => simp [divergesFrom] at hd
    | cons b q' =>
      by_cases hab : a = b
      · subst hab
        have hd' : divergesFrom p' q' = true := by
          simpa [divergesFrom] using hd
        cases p' with
        | nil => simp [divergesFrom] at hd'
        | cons c cs =>
          simp only [insertPath]
          cases hc : (t.setCache none).childAt (if a = 1 then 1 else 0) with
          | some child =>
            have hc' : t.childAt a = some child := by
              rwa [childAt_setCache, childAt_norm] at hc
            simp only [hc, lookupPath, childAt_setChild_norm, hc']
            exact ih q' child hd' (fun x hx => hp x (List.mem_cons_of_mem _ hx))
              (fun x hx => hq x (List.mem_cons_of_mem _ hx))
          | none =>
            have hc' : t.childAt a = none := by
              rwa [childAt_setCache, childAt_norm] at hc
            simp only [hc, lookupPath, childAt_setChild_norm, hc']
            exact lookupPath_insertPath_new v (c :: cs) q' hd'
              (fun x hx => hp x (List.mem_cons_of_mem _ hx))
              (fun x hx => hq x (List.mem_cons_of_mem _ hx))
      · have ha2 : a < 2 := hp a (List.mem_cons_self _ _)
        have hb2 : b < 2 := hq b (List.mem_cons_self _ _)
        cases p' with
        | nil =>
          simp only [insertPath, lookupPath]
          cases hc : (t.setCache none).childAt (if a = 1 then 1 else 0) <;>
          · simp only [hc]
            rw [childAt_setChild_norm_ne _ a b _ ha2 hb2 hab, childAt_setCache]
        | cons c cs =>
          simp only [insertPath, lookupPath]
          cases hc : (t.setCache none).childAt (if a = 1 then 1 else 0) <;>
          · simp only [hc]
            rw [childAt_setChild_norm_ne _ a b _ ha2 hb2 hab, childAt_setCache]

@[simp] theorem setCache_setCache (t : TrieNode α) (c c' : Option String) :
    (t.setCache c).setCache c' = t.setCache c' := by
  cases t; rfl

theorem setCache_setChild_comm (t : TrieNode α) (i : Nat) (x : Option (TrieNode α))
    (c : Option String) :
    (t.setChild i x).setCache c = (t.setCache c).setChild i x := by
  cases t with
  | node d l r mc => by_cases hi : i = 1 <;> simp [setChild, setCache, hi]

theorem set_data_set_data_clear (t : TrieNode α) (v v' : α) :
    (((t.setCache none).set_data v').setCache none).set_data v =
      (t.setCache none).set_data v := by
  cases t; rfl

/-- Inserting a value at a path erases any previous insertion at the same
path completely: a detour value leaves no trace, caches included. -/
theorem insertPath_insertPath (v v' : α) :
    ∀ (p : List Nat) (t : TrieNode α), p ≠ [] →
      insertPath v p (insertPath v' p t) = insertPath v p t := by
  intro p
  induction p with
  | nil => intro t h; exact absurd rfl h
  | cons b bs ih =>
    intro t _
    cases bs with
    | nil =>
      simp only [insertPath]
      cases hc : (t.setCache none).childAt (if b = 1 then 1 else 0) with
      | some child =>
        simp only [hc, setCache_setChild_comm, setCache_setCache,
          childAt_setChild_self, setChild_setChild, set_data_set_data_clear]
      | none =>
        simp only [hc, setCache_setChild_comm, setCache_setCache,
          childAt_setChild_self, setChild_setChild]
        have : ((new_with v').setCache none).set_data v = new_with v := rfl
        rw [this]
    | cons c cs =>
      simp only [insertPath]
      cases hc : (t.setCache none).childAt (if b = 1 then 1 else 0) with
      | some child =>
        simp only [hc, setCache_setChild_comm, setCache_setCache,
          childAt_setChild_self, setChild_setChild, ih child (by simp)]
      | none =>
        simp only [hc, setCache_setChild_comm, setCache_setCache,
          childAt_setChild_self, setChild_setChild, ih new (by simp)]

/-- Every cached digest along the inserted path, from the root through
the terminal node, is unset after the insertion. -/
theorem pathCleared_insertPath (v : α) :
    ∀ (p : List Nat) (t : TrieNode α), p ≠ [] →
      pathCleared (insertPath v p t) p = true := by
  intro p
  induction p with
  | nil => intro t h; exact absurd rfl h
  | cons b bs ih =>
    intro t _
    cases bs with
    | nil =>
      simp only [insertPath]
      cases hc : (t.setCache none).childAt (if b = 1 then 1 else 0) with
      | some child =>
        simp only [pathCleared, cache_setChild, cache_setCache, Option.isNone_none,
          childAt_setChild_norm, cache_set_data]
        simp [pathCleared]
      | none =>
        simp only [pathCleared, cache_setChild, cache_setCache, Option.isNone_none,
          childAt_setChild_norm]
        simp [pathCleared]
    | cons c cs =>
      simp only [insertPath]
      cases hc : (t.setCache none).childAt (if b = 1 then 1 else 0) with
      | some child =>
        simp only [pathCleared, cache_setChild, cache_setCache, Option.isNone_none,
          childAt_setChild_norm, Bool.true_and]
        exact ih child (by simp)
      | none =>
        simp only [pathCleared, cache_setChild, cache_setCache, Option.isNone_none,
          childAt_setChild_norm, Bool.true_and]
        exact ih new (by simp)

/-! ### The cache-validity invariant under insertion -/

theorem setCache_node (d : Option α) (l r : Option (TrieNode α)) (mc c : Option String) :
    (node d l r mc).setCache c = node d l r c := rfl

theorem set_data_node (d : Option α) (l r : Option (TrieNode α)) (mc : Option String)
    (v : α) : (node d l r mc).set_data v = node (some v) l r mc := rfl

theorem childAt_node (d : Option α) (l r : Option (TrieNode α)) (mc : Option String)
    (i : Nat) : (node d l r mc).childAt i = if i = 1 then r else l := rfl

theorem setChild_node (d : Option α) (l r : Option (TrieNode α)) (mc : Option String)
    (i : Nat) (x : Option (TrieNode α)) :
    (node d l r mc).setChild i x = if i = 1 then node d l x mc else node d x r mc := rfl

section DigestLemmas

variable (toStr : α → String) (H : String → String)

theorem cacheOk_new : cacheOk toStr H (new : TrieNode α) = true := by
  simp [cacheOk, cacheOkChild, new]

theorem cacheOk_new_with (v : α) : cacheOk toStr H (new_with v) = true := by
  simp [cacheOk, cacheOkChild, new_with]

theorem cacheOk_children (d : Option α) (l r : Option (TrieNode α)) (mc : Option String)
    (h : cacheOk toStr H (node d l r mc) = true) :
    cacheOkChild toStr H l = true ∧ cacheOkChild toStr H r = true := by
  simp only [cacheOk, Bool.and_eq_true] at h
  exact ⟨h.1.2, h.2⟩

theorem cacheOk_node_none (d : Option α) (l r : Option (TrieNode α)) :
    cacheOk toStr H (node d l r none) =
      (cacheOkChild toStr H l && cacheOkChild toStr H r) := by
  simp [cacheOk]

/-- A terminal-step write keeps the subtree cache-valid: the payload is
replaced and the cache cleared, the children are untouched. -/
theorem cacheOk_terminal_write (v : α) (child : TrieNode α)
    (h : cacheOk toStr H child = true) :
    cacheOk toStr H ((child.setCache none).set_data v) = true := by
  obtain ⟨cd, cl, cr, cc⟩ := child
  obtain ⟨hcl, hcr⟩ := cacheOk_children toStr H cd cl cr cc h
  rw [setCache_node, set_data_node, cacheOk_node_none, hcl, hcr]
  rfl

/-- Reading an existing child of a cache-valid tree yields a cache-valid
subtree. -/
theorem cacheOk_childAt (t : TrieNode α) (i : Nat) (c : TrieNode α)
    (h : cacheOk toStr H t = true) (hc : t.childAt i = some c) :
    cacheOk toStr H c = true := by
  obtain ⟨d, l, r, mc⟩ := t
  obtain ⟨hl, hr⟩ := cacheOk_children toStr H d l r mc h
  rw [childAt_node] at hc
  by_cases hi : i = 1
  · rw [if_pos hi] at hc
    subst hc
    simpa [cacheOkChild] using hr
  · rw [if_neg hi] at hc
    subst hc
    simpa [cacheOkChild] using hl

/-- Replacing one child (through a normalized index) of a cache-valid
tree with a cache-valid subtree, clearing the root cache, is cache-valid. -/
theorem cacheOk_setChild_none (t : TrieNode α) (b : Nat) (u : TrieNode α)
    (hok : cacheOk toStr H t = true) (hu : cacheOk toStr H u = true) :
    cacheOk toStr H
      ((t.setCache none).setChild (if b = 1 then 1 else 0) (some u)) = true := by
  obtain ⟨d, l, r, mc⟩ := t
  obtain ⟨hl, hr⟩ := cacheOk_children toStr H d l r mc hok
  by_cases hb : b = 1
  · have h1 : (if b = 1 then (1 : Nat) else 0) = 1 := by simp [hb]
    rw [h1, setCache_node, setChild_node, if_pos rfl, cacheOk_node_none, hl]
    simpa [cacheOkChild] using hu
  · have h0 : (if b = 1 then (1 : Nat) else 0) = 0 := by simp [hb]
    rw [h0, setCache_node, setChild_node, if_neg (by decide), cacheOk_node_none, hr]
    simpa [cacheOkChild] using hu

/-- Insertion preserves cache validity: every cache it leaves in place
guards an untouched subtree, and every cache on the touched path is
cleared. -/
theorem insertPath_cacheOk (v : α) :
    ∀ (p : List Nat) (t : TrieNode α), cacheOk toStr H t = true →
      cacheOk toStr H (insertPath v p t) = true := by
  intro p
  induction p with
  | nil => intro t h; simpa [insertPath] using h
  | cons b bs ih =>
    intro t h
    cases bs with
    | nil =>
      simp only [insertPath]
      cases hc : (t.setCache none).childAt (if b = 1 then 1 else 0) with
      | some child =>
        have hc' : t.childAt (if b = 1 then 1 else 0) = some child := by
          rwa [childAt_setCache] at hc
        exact cacheOk_setChild_none toStr H t b _ h
          (cacheOk_terminal_write toStr H v child
            (cacheOk_childAt toStr H t _ child h hc'))
      | none =>
        exact cacheOk_setChild_none toStr H t b _ h (cacheOk_new_with toStr H v)
    | cons c cs =>
      simp only [insertPath]
      cases hc : (t.setCache none).childAt (if b = 1 then 1 else 0) with
      | some child =>
        have hc' : t.childAt (if b = 1 then 1 else 0) = some child := by
          rwa [childAt_setCache] at hc
        exact cacheOk_setChild_none toStr H t b _ h
          (ih child (cacheOk_childAt toStr H t _ child h hc'))
      | none =>
        exact cacheOk_setChild_none toStr H t b _ h (ih new (cacheOk_new toStr H))

end DigestLemmas

/-! ### The memoized Merkle computation against the pure digest -/

theorem cacheLe_refl : ∀ t : TrieNode α, cacheLe t t := by
  refine indT (fun t => cacheLe t t) (fun o => cacheLeChild o o) ?_ ?_ ?_
  · intro d l r mc hl hr
    simp only [cacheLe]
    exact ⟨by trivial, hl, hr, fun c hc => hc⟩
  · simp [cacheLeChild]
  · intro t ht
    simpa [cacheLeChild] using ht

section DigestMain

variable (toStr : α → String) (H : String → String)

theorem merkle_root_cached (d : Option α) (l r : Option (TrieNode α)) (c : String) :
    merkle_root toStr H (node d l r (some c)) = (c, node d l r (some c)) := by
  simp [merkle_root]

theorem merkleChild_none :
    merkleChild toStr H (none : Option (TrieNode α)) = (H "", none) := by
  simp [merkleChild]

theorem merkleChild_some (c : TrieNode α) :
    merkleChild toStr H (some c) =
      ((merkle_root toStr H c).1, some (merkle_root toStr H c).2) := by
  simp [merkleChild]

theorem merkle_root_leaf (d : Option α) :
    merkle_root toStr H (node d none none none) =
      (H ((d.map toStr).getD ""), node d none none (some (H ((d.map toStr).getD "")))) := by
  simp [merkle_root]

theorem merkle_root_inner (d : Option α) (l r : Option (TrieNode α))
    (h : l.isSome ∨ r.isSome) :
    merkle_root toStr H (node d l r none) =
      (H (H ((d.map toStr).getD "") ++ (merkleChild toStr H l).1 ++
          (merkleChild toStr H r).1),
        node d (merkleChild toStr H l).2 (merkleChild toStr H r).2
          (some (H (H ((d.map toStr).getD "") ++ (merkleChild toStr H l).1 ++
            (merkleChild toStr H r).1)))) := by
  cases l with
  | none =>
    cases r with
    | none => simp at h
    | some cr => simp [merkle_root, merkleChild]
  | some cl =>
    cases r with
    | none => simp [merkle_root, merkleChild]
    | some cr => simp [merkle_root, merkleChild]

theorem specRoot_node (d : Option α) (l r : Option (TrieNode α)) (mc : Option String) :
    specRoot toStr H (node d l r mc) =
      if l.isNone ∧ r.isNone then H ((d.map toStr).getD "")
      else H (H ((d.map toStr).getD "") ++ specChild toStr H l ++ specChild toStr H r) := by
  simp [specRoot]

theorem stripCache_node (d : Option α) (l r : Option (TrieNode α)) (mc : Option String) :
    stripCache (node d l r mc) =
      node d (stripCacheChild l) (stripCacheChild r) none := by
  simp [stripCache]

theorem cacheOk_cached (d : Option α) (l r : Option (TrieNode α)) (c : String)
    (h : cacheOk toStr H (node d l r (some c)) = true) :
    c = specRoot toStr H (node d l r (some c)) := by
  simp only [cacheOk, Bool.and_eq_true] at h
  exact eq_of_beq h.1.1

/-- The heart of the verification: one pass of `merkle_root`
(1) does not change the pure digest of the tree,
(2) does not change payloads or structure (`stripCache`),
(3) only adds cache entries (`cacheLe`),
(4) leaves its own digest cached at the root, and
(5) starting from a cache-valid tree, returns exactly the pure digest and
    leaves the tree cache-valid. -/
theorem merkle_root_main : ∀ t : TrieNode α,
    specRoot toStr H (merkle_root toStr H t).2 = specRoot toStr H t ∧
    stripCache (merkle_root toStr H t).2 = stripCache t ∧
    cacheLe t (merkle_root toStr H t).2 ∧
    ((merkle_root toStr H t).2).cache = some (merkle_root toStr H t).1 ∧
    (cacheOk toStr H t = true →
      (merkle_root toStr H t).1 = specRoot toStr H t ∧
      cacheOk toStr H (merkle_root toStr H t).2 = true) := by
  refine indT _
    (fun o =>
      specChild toStr H (merkleChild toStr H o).2 = specChild toStr H o ∧
      stripCacheChild (merkleChild toStr H o).2 = stripCacheChild o ∧
      cacheLeChild o (merkleChild toStr H o).2 ∧
      ((merkleChild toStr H o).2).isSome = o.isSome ∧
      (cacheOkChild toStr H o = true →
        (merkleChild toStr H o).1 = specChild toStr H o ∧
        cacheOkChild toStr H (merkleChild toStr H o).2 = true))
    ?_ ?_ ?_
  · intro d l r mc Ql Qr
    cases mc with
    | some c =>
      rw [merkle_root_cached]
      refine ⟨rfl, rfl, cacheLe_refl _, rfl, fun hok => ⟨?_, hok⟩⟩
      exact cacheOk_cached toStr H d l r c hok
    | none =>
      by_cases hlr : l.isSome ∨ r.isSome
      · rw [merkle_root_inner toStr H d l r hlr]
        obtain ⟨Ql1, Ql2, Ql3, Ql4, Ql5⟩ := Ql
        obtain ⟨Qr1, Qr2, Qr3, Qr4, Qr5⟩ := Qr
        have hnl : ¬((merkleChild toStr H l).2.isNone ∧ (merkleChild toStr H r).2.isNone) := by
          intro hcontra
          obtain ⟨h1, h2⟩ := hcontra
          rcases hlr with h | h
          · have hsome : (merkleChild toStr H l).2.isSome = true := Ql4.trans h
            rw [Option.isNone_iff_eq_none] at h1
            rw [h1] at hsome
            simp at hsome
          · have hsome : (merkleChild toStr H r).2.isSome = true := Qr4.trans h
            rw [Option.isNone_iff_eq_none] at h2
            rw [h2] at hsome
            simp at hsome
        have hnl' : ¬(l.isNone ∧ r.isNone) := by
          rcases hlr with h | h <;> simp [Option.isSome_iff_ne_none] at h <;>
            simp [Option.isNone_iff_eq_none, h]
        have hspec1 :
            specRoot toStr H
                (node d (merkleChild toStr H l).2 (merkleChild toStr H r).2
                  (some (H (H ((d.map toStr).getD "") ++ (merkleChild toStr H l).1 ++
                    (merkleChild toStr H r).1)))) =
              specRoot toStr H (node d l r none) := by
          rw [specRoot_node, specRoot_node, if_neg hnl, if_neg hnl', Ql1, Qr1]
        refine ⟨hspec1, ?_, ?_, rfl, ?_⟩
        · rw [stripCache_node, stripCache_node, Ql2, Qr2]
        · simp only [cacheLe]
          exact ⟨by trivial, Ql3, Qr3, fun c hc => by cases hc⟩
        · intro hok
          obtain ⟨hl, hr⟩ := cacheOk_children toStr H d l r none hok
          obtain ⟨hQl5a, hQl5b⟩ := Ql5 hl
          obtain ⟨hQr5a, hQr5b⟩ := Qr5 hr
          constructor
          · rw [hQl5a, hQr5a, specRoot_node, if_neg hnl']
          · simp only [cacheOk, Bool.and_eq_true]
            refine ⟨⟨?_, hQl5b⟩, hQr5b⟩
            rw [hspec1, specRoot_node, if_neg hnl', hQl5a, hQr5a]
            exact beq_self_eq_true _
      · have hl : l = none := by
          cases l with
          | none => rfl
          | some _ => exact absurd (Or.inl (by simp)) hlr
        have hr : r = none := by
          cases r with
          | none => rfl
          | some _ => exact absurd (Or.inr (by simp)) hlr
        subst hl; subst hr
        rw [merkle_root_leaf]
        refine ⟨?_, ?_, ?_, rfl, fun hok => ⟨?_, ?_⟩⟩
        · rw [specRoot_node, specRoot_node]
        · rw [stripCache_node, stripCache_node]
        · simp only [cacheLe, cacheLeChild]
          exact ⟨by trivial, trivial, trivial, fun c hc => by cases hc⟩
        · rw [specRoot_node]
          simp
        · simp only [cacheOk, cacheOkChild, Bool.and_eq_true]
          refine ⟨⟨?_, by trivial⟩, by trivial⟩
          rw [specRoot_node]
          simp
  · simp only [merkleChild_none]
    refine ⟨by trivial, by trivial, ?_, by trivial, fun _ => ⟨by trivial, by trivial⟩⟩
    simp [cacheLeChild]
  · intro t ht
    obtain ⟨h1, h2, h3, h4, h5⟩ := ht
    rw [merkleChild_some]
    refine ⟨?_, ?_, ?_, rfl, fun hok => ?_⟩
    · simpa [specChild] using h1
    · simpa [stripCacheChild] using h2
    · simpa [cacheLeChild] using h3
    · have hok' : cacheOk toStr H t = true := by simpa [cacheOkChild] using hok
      obtain ⟨ha, hb⟩ := h5 hok'
      constructor
      · simpa [specChild] using ha
      · simpa [cacheOkChild] using hb

/-- A cache hit returns the cached digest and leaves the tree untouched. -/
theorem merkle_root_cacheHit (t : TrieNode α) (c : String) (h : t.cache = some c) :
    merkle_root toStr H t = (c, t) := by
  obtain ⟨d, l, r, mc⟩ := t
  have hmc : mc = some c := by simpa [cache] using h
  subst hmc
  exact merkle_root_cached toStr H d l r c

/-- Re-running `merkle_root` on the updated tree returns the identical
digest and changes nothing: the digest is cached at the root. -/
theorem merkle_root_idem (t : TrieNode α) :
    merkle_root toStr H (merkle_root toStr H t).2 =
      ((merkle_root toStr H t).1, (merkle_root toStr H t).2) :=
  merkle_root_cacheHit toStr H _ _ (merkle_root_main toStr H t).2.2.2.1

/-- Every tree state reachable by `insert` and `merkle_root` calls is
cache-valid. -/
theorem reachable_cacheOk (t : TrieNode α) (h : Reachable toStr H t) :
    cacheOk toStr H t = true := by
  induction h with
  | empty => exact cacheOk_new toStr H
  | insertStep key v h ih =>
    rw [insert_eq_insertPath]
    exact insertPath_cacheOk toStr H v _ _ ih
  | merkleStep h ih => exact ((merkle_root_main toStr H _).2.2.2.2 ih).2

end DigestMain

/-! ### Totality: the checked variants never fail -/

theorem mapM_eq_some_map (f : Char → Option Nat) (g : Char → Nat) :
    ∀ l : List Char, (∀ c ∈ l, f c = some (g c)) → l.mapM f = some (l.map g) := by
  intro l
  induction l with
  | nil => intro _; rfl
  | cons c cs ih =>
    intro h
    rw [List.mapM_cons, h c (List.mem_cons_self _ _),
      ih (fun x hx => h x (List.mem_cons_of_mem _ hx))]
    rfl

theorem parseDigit_binString (key : Nat) :
    ∀ c ∈ binString key, parseDigit c = some ((parseDigit c).getD 0) := by
  intro c hc
  rcases mem_binString key c hc with rfl | rfl <;> decide

/-- The character-by-character parse in `path_to_node` never fails:
binary formatting produces only the digits 0 and 1. -/
theorem path_to_node_checked_eq (key : Nat) :
    path_to_node_checked key = some (path_to_node key) := by
  rw [path_to_node_checked, path_to_node]
  exact mapM_eq_some_map _ _ _ (parseDigit_binString key)

theorem get?_of_lt (l : List Nat) (n : Nat) (h : n < l.length) :
    l.get? n = some (l.getD n 0) := by
  rw [List.get?_eq_getElem?, List.getElem?_eq_getElem h, List.getD_eq_getElem l 0 h]

theorem getD_lt_two (path : List Nat) (hb : ∀ b ∈ path, b < 2) (n : Nat)
    (h : n < path.length) : path.getD n 0 < 2 := by
  rw [List.getD_eq_getElem _ _ h]
  exact hb _ (List.getElem_mem h)

theorem findLoopChecked_eq (path : List Nat) (hb : ∀ b ∈ path, b < 2) :
    ∀ (index : Nat) (t : TrieNode α), index < path.length →
      findLoopChecked path index t = some (findLoop path index t) := by
  intro index
  induction index with
  | zero =>
    intro t h
    simp only [findLoopChecked, findLoop, get?_of_lt path 0 h]
    rw [if_pos (getD_lt_two path hb 0 h)]
  | succ index ih =>
    intro t h
    simp only [findLoopChecked, findLoop, get?_of_lt path (index + 1) h]
    rw [if_pos (getD_lt_two path hb (index + 1) h)]
    cases t.childAt (path.getD (index + 1) 0) with
    | none => rfl
    | some next => exact ih next (by omega)

/-- `find_by_key` never panics: the initial index is in bounds, every
path and child indexing is in bounds. -/
theorem find_by_key_checked_eq (t : TrieNode α) (key : Nat) :
    find_by_key_checked t key = some (find_by_key t key) := by
  rw [find_by_key_checked, path_to_node_checked_eq]
  have h1 : ¬(path_to_node key).length = 0 := by
    have := length_path_to_node_pos key
    omega
  simp only [if_neg h1]
  exact findLoopChecked_eq (path_to_node key) (mem_path_to_node_lt_two key) _ t
    (by have := length_path_to_node_pos key; omega)

theorem insertRecurseChecked_eq (data : α) (path : List Nat) :
    ∀ (index : Nat) (t : TrieNode α), index < path.length →
      insertRecurseChecked data path index t = some (insert_recurse data path index t) := by
  intro index
  induction index with
  | zero =>
    intro t h
    simp only [insertRecurseChecked, insert_recurse, get?_of_lt path 0 h]
  | succ index ih =>
    intro t h
    simp only [insertRecurseChecked, insert_recurse, get?_of_lt path (index + 1) h]
    cases horig : (t.setCache none).childAt
        (if path.getD (index + 1) 0 = 1 then 1 else 0) with
    | some child =>
      simp only [horig, Option.isNone_some, Bool.false_eq_true, if_false, Option.getD_some,
        ih child (by omega)]
    | none =>
      simp only [horig, Option.isNone_none, if_true, childAt_setChild_self, Option.getD_some,
        ih new (by omega)]

/-- `insert` never panics: the path indexing is in bounds and the
`unwrap` of the just-ensured child always succeeds. -/
theorem insertChecked_eq (t : TrieNode α) (key : Nat) (data : α) :
    insertChecked t key data = some (insert t key data) := by
  rw [insertChecked, path_to_node_checked_eq]
  have h1 : ¬(path_to_node key).length = 0 := by
    have := length_path_to_node_pos key
    omega
  simp only [if_neg h1]
  exact insertRecurseChecked_eq data (path_to_node key) _ t
    (by have := length_path_to_node_pos key; omega)

section CheckedDigest

variable (toStr : α → String) (H : String → String)

/-- `merkle_root` never panics: the two-element hash list always yields
its first and second elements. -/
theorem merkleRootChecked_eq : ∀ t : TrieNode α,
    merkleRootChecked toStr H t = some (merkle_root toStr H t) := by
  refine indT _
    (fun o => merkleChildChecked toStr H o = some (merkleChild toStr H o)) ?_ ?_ ?_
  · intro d l r mc Ql Qr
    cases mc with
    | some c => simp [merkleRootChecked, merkle_root_cached]
    | none =>
      cases l with
      | none =>
        cases r with
        | none => simp [merkleRootChecked, merkle_root_leaf]
        | some cr =>
          rw [merkle_root_inner toStr H d none (some cr) (Or.inr (by simp))]
          simp only [merkleRootChecked, Ql, Qr]
          simp [List.get?]
      | some cl =>
        cases r with
        | none =>
          rw [merkle_root_inner toStr H d (some cl) none (Or.inl (by simp))]
          simp only [merkleRootChecked, Ql, Qr]
          simp [List.get?]
        | some cr =>
          rw [merkle_root_inner toStr H d (some cl) (some cr) (Or.inl (by simp))]
          simp only [merkleRootChecked, Ql, Qr]
          simp [List.get?]
  · simp [merkleChildChecked, merkleChild_none]
  · intro t ht
    simp [merkleChildChecked, ht, merkleChild_some]

end CheckedDigest

/-! ### Concrete path values and definition-unfolding helpers -/

theorem insert_def (t : TrieNode α) (key : Nat) (data : α) :
    insert t key data =
      insert_recurse data (path_to_node key) ((path_to_node key).length - 1) t := rfl

theorem find_by_key_def (t : TrieNode α) (key : Nat) :
    find_by_key t key =
      findLoop (path_to_node key) ((path_to_node key).length - 1) t := rfl

theorem path_to_node_zero : path_to_node 0 = [0] := by
  simp [path_to_node, binString, parseDigit]

theorem path_to_node_one : path_to_node 1 = [1] := by
  simp [path_to_node, binString, parseDigit]

theorem path_to_node_two : path_to_node 2 = [1, 0] := by
  simp [path_to_node, binString, parseDigit]

theorem path_to_node_four : path_to_node 4 = [1, 0, 0] := by
  simp [path_to_node, binString, parseDigit]

theorem path_to_node_six : path_to_node 6 = [1, 1, 0] := by
  simp [path_to_node, binString, parseDigit]

theorem reverse_path_ne_nil (key : Nat) : (path_to_node key).reverse ≠ [] := by
  intro h
  exact path_to_node_ne_nil key (List.reverse_eq_nil_iff.mp h)

theorem mem_reverse_path_lt_two (key : Nat) :
    ∀ b ∈ (path_to_node key).reverse, b < 2 := by
  intro b hb
  exact mem_path_to_node_lt_two key b (List.mem_reverse.mp hb)

/-! ### The claims -/

/-- Claim C1, as stated, is false: the descent does not consume
`path_to_node(key)` from element 0 (the leading bit) onward.  At
`key = 4` with `path_to_node 4 = [1, 0, 0]`, the first descent step of
`insert` into an empty tree takes child 0 — element 2 of the path, the
trailing bit — and child 1 (element 0, the leading bit) stays absent. -/
theorem claimC1_counterexample :
    path_to_node 4 = [1, 0, 0] ∧
    ((insert (new : TrieNode Nat) 4 0).childAt 1).isNone = true ∧
    ((insert (new : TrieNode Nat) 4 0).childAt 0).isSome = true := by
  refine ⟨path_to_node_four, ?_, ?_⟩ <;>
  · rw [insert_def, path_to_node_four]
    decide

/-- Claim C1, amended: `insert` and `find_by_key` traverse the trie by
consuming the key's bit path in reverse — the child index taken at
descent step `i` from the root is element `i` of the REVERSED
`path_to_node key` (element `length - 1 - i` of the path), so the node
addressed by a key is reached by following its minimal binary
representation from its trailing bit to its leading bit.  `lookupPath`
and `insertPath` consume their index list head-first from the root. -/
theorem claimC1_amended (t : TrieNode α) (key : Nat) (v : α) :
    find_by_key t key = lookupPath t ((path_to_node key).reverse) ∧
    insert t key v = insertPath v ((path_to_node key).reverse) t :=
  ⟨find_by_key_eq_lookupPath t key, insert_eq_insertPath t key v⟩

/-- Claim C2, as stated, is false: non-prefix-relatedness of the FORWARD
binary representations does not shield `find`.  Keys 6 (`[1,1,0]`) and 2
(`[1,0]`) are not prefix-related, yet on the empty tree `find(2)` is
not-found before `insert(6, v)` and found-but-empty after it, because the
trie is addressed by the reversed bit strings (`[0,1,1]` extends `[0,1]`). -/
theorem claimC2_counterexample :
    initSeg (path_to_node 2) (path_to_node 6) = false ∧
    initSeg (path_to_node 6) (path_to_node 2) = false ∧
    (find_by_key (new : TrieNode Nat) 2).isNone = true ∧
    (find_by_key (insert (new : TrieNode Nat) 6 5) 2).map get_data = some none := by
  refine ⟨?_, ?_, ?_, ?_⟩
  · rw [path_to_node_two, path_to_node_six]; decide
  · rw [path_to_node_two, path_to_node_six]; decide
  · rw [find_by_key_def, path_to_node_two]; decide
  · rw [find_by_key_def, insert_def, path_to_node_two, path_to_node_six]; decide

/-- Claim C2, amended: for keys whose REVERSED minimal binary
representations (the bit paths as actually consumed, least-significant
bit first) are not prefix-related, `insert(k1, v)` leaves the entire
observable result of `find(k2)` — existence and payload — unchanged. -/
theorem claimC2_amended (k1 k2 : Nat) (v : α) (t : TrieNode α)
    (h : divergesFrom ((path_to_node k1).reverse) ((path_to_node k2).reverse) = true) :
    find_by_key (insert t k1 v) k2 = find_by_key t k2 := by
  rw [find_by_key_eq_lookupPath, find_by_key_eq_lookupPath, insert_eq_insertPath]
  exact lookupPath_insertPath_frame v _ _ t h
    (mem_reverse_path_lt_two k1) (mem_reverse_path_lt_two k2)

/-- Witness for C2 at keys 1 and 2 on the empty tree: the reversed paths
`[1]` and `[0, 1]` diverge at their first element. -/
theorem claimC2_witness :
    divergesFrom ((path_to_node 1).reverse) ((path_to_node 2).reverse) = true ∧
    find_by_key (insert (new : TrieNode Nat) 1 7) 2 = find_by_key (new : TrieNode Nat) 2 := by
  have h : divergesFrom ((path_to_node 1).reverse) ((path_to_node 2).reverse) = true := by
    rw [path_to_node_one, path_to_node_two]; decide
  exact ⟨h, claimC2_amended 1 2 7 new h⟩

/-- Claim C3: after `insert(k, v)`, `find_by_key(k)` returns a node whose
payload is `some v`; inserting `v1` then `v2` at the same key leaves the
payload `some v2` — the second insert overwrites. -/
theorem claimC3_insert_find (t : TrieNode α) (key : Nat) (v v1 v2 : α) :
    (find_by_key (insert t key v) key).map get_data = some (some v) ∧
    (find_by_key (insert (insert t key v1) key v2) key).map get_data = some (some v2) := by
  constructor <;>
  · rw [find_by_key_eq_lookupPath, insert_eq_insertPath]
    exact lookupPath_insertPath_self _ _ _ (reverse_path_ne_nil key)

/-- Claim C4: in every tree state reachable from the empty tree by
`insert` and `merkle_root` calls, every node whose cached digest is
`some d` has `d` equal to the deterministic digest of its current payload
and the current digests of its two subtrees — no cache is ever stale. -/
theorem claimC4_cache_invariant (toStr : α → String) (H : String → String)
    (t : TrieNode α) (h : Reachable toStr H t) : cacheOk toStr H t = true :=
  reachable_cacheOk toStr H t h

/-- Witness for C4: the state after `insert 5` from the empty tree. -/
theorem claimC4_witness :
    Reachable (id : String → String) (id : String → String)
      (insert (new : TrieNode String) 5 "x") ∧
    cacheOk (id : String → String) (id : String → String)
      (insert (new : TrieNode String) 5 "x") = true :=
  ⟨Reachable.insertStep 5 "x" Reachable.empty,
    claimC4_cache_invariant _ _ _ (Reachable.insertStep 5 "x" Reachable.empty)⟩

/-- Claim C5: in every reachable state, `merkle_root` returns exactly the
pure cache-ignoring recursive digest `specRoot` of the tree's payloads
and structure; repeated calls on the unmodified tree return the identical
digest; and re-inserting the same payload at the same key restores the
previous root digest even after an intervening insert of a different
value at that key. -/
theorem claimC5_refinement (toStr : α → String) (H : String → String)
    (t : TrieNode α) (h : Reachable toStr H t) (key : Nat) (v v' : α) :
    (merkle_root toStr H t).1 = specRoot toStr H t ∧
    (merkle_root toStr H (merkle_root toStr H t).2).1 = (merkle_root toStr H t).1 ∧
    (merkle_root toStr H (insert (insert (insert t key v) key v') key v)).1 =
      (merkle_root toStr H (insert t key v)).1 := by
  refine ⟨((merkle_root_main toStr H t).2.2.2.2 (reachable_cacheOk toStr H t h)).1, ?_, ?_⟩
  · rw [merkle_root_idem]
  · have h2 : insert (insert (insert t key v) key v') key v = insert t key v := by
      rw [insert_eq_insertPath t key v]
      rw [insert_eq_insertPath, insert_eq_insertPath]
      rw [insertPath_insertPath v v' _ _ (reverse_path_ne_nil key),
        insertPath_insertPath v v _ _ (reverse_path_ne_nil key)]
    rw [h2]

/-- Witness for C5: the empty tree, key 1, values "a" and "b". -/
theorem claimC5_witness :
    Reachable (id : String → String) (id : String → String) (new : TrieNode String) ∧
    ((merkle_root (id : String → String) (id : String → String)
          (new : TrieNode String)).1 =
        specRoot (id : String → String) (id : String → String) (new : TrieNode String) ∧
      (merkle_root (id : String → String) (id : String → String)
          (merkle_root (id : String → String) (id : String → String)
            (new : TrieNode String)).2).1 =
        (merkle_root (id : String → String) (id : String → String)
          (new : TrieNode String)).1 ∧
      (merkle_root (id : String → String) (id : String → String)
          (insert (insert (insert (new : TrieNode String) 1 "a") 1 "b") 1 "a")).1 =
        (merkle_root (id : String → String) (id : String → String)
          (insert (new : TrieNode String) 1 "a")).1) :=
  ⟨Reachable.empty, claimC5_refinement _ _ _ Reachable.empty 1 "a" "b"⟩

/-- Claim C6: for a node with no cached digest, `merkle_root` returns
`H(stringify(payload-or-""))` when both children are absent, and
otherwise `H(own_hash ++ left_digest ++ right_digest)` where an absent
child contributes `H ""` — the hash of the empty string — and digests are
concatenated as text. -/
theorem claimC6_digest_formula (toStr : α → String) (H : String → String)
    (t : TrieNode α) (h : t.cache = none) :
    (merkle_root toStr H t).1 =
      if t.left.isNone ∧ t.right.isNone then H ((t.maybe_data.map toStr).getD "")
      else H (H ((t.maybe_data.map toStr).getD "") ++ (merkleChild toStr H t.left).1 ++
        (merkleChild toStr H t.right).1) := by
  obtain ⟨d, l, r, mc⟩ := t
  have hmc : mc = none := by simpa [cache] using h
  subst hmc
  simp only [left, right, maybe_data]
  by_cases hlr : l.isSome ∨ r.isSome
  · have hn : ¬(l.isNone ∧ r.isNone) := by
      rcases hlr with h1 | h1 <;> simp [Option.isSome_iff_ne_none] at h1 <;>
        simp [Option.isNone_iff_eq_none, h1]
    rw [merkle_root_inner toStr H d l r hlr, if_neg hn]
  · have hl : l = none := by
      cases l with
      | none => rfl
      | some _ => exact absurd (Or.inl (by simp)) hlr
    have hr : r = none := by
      cases r with
      | none => rfl
      | some _ => exact absurd (Or.inr (by simp)) hlr
    subst hl; subst hr
    rw [merkle_root_leaf, if_pos ⟨rfl, rfl⟩]

/-- Witness for C6: the empty root node has no cached digest. -/
theorem claimC6_witness :
    (new : TrieNode String).cache = none ∧
    ((merkle_root (id : String → String) (id : String → String)
        (new : TrieNode String)).1 =
      if (new : TrieNode String).left.isNone ∧ (new : TrieNode String).right.isNone
      then (id : String → String)
        (((new : TrieNode String).maybe_data.map (id : String → String)).getD "")
      else (id : String → String)
        ((id : String → String)
            (((new : TrieNode String).maybe_data.map (id : String → String)).getD "") ++
          (merkleChild (id : String → String) (id : String → String)
            (new : TrieNode String).left).1 ++
          (merkleChild (id : String → String) (id : String → String)
            (new : TrieNode String).right).1)) :=
  ⟨rfl, claimC6_digest_formula _ _ _ rfl⟩

/-- Claim C7: `path_to_node` returns the key's minimal binary
representation most-significant bit first, with only 0/1 entries, no
leading zeros, value folding back to the key, length
`⌊log2 key⌋ + 1` for positive keys, and the stated concrete values. -/
theorem claimC7_path_encoding (key : Nat) :
    path_to_node 4 = [1, 0, 0] ∧ path_to_node 1 = [1] ∧ path_to_node 0 = [0] ∧
    (∀ b ∈ path_to_node key, b = 0 ∨ b = 1) ∧
    (path_to_node key).foldl (fun a b => 2 * a + b) 0 = key ∧
    (1 ≤ key → (path_to_node key).head? = some 1 ∧
      (path_to_node key).length = Nat.log2 key + 1) :=
  ⟨path_to_node_four, path_to_node_one, path_to_node_zero, mem_path_to_node key,
    foldl_path_to_node key, fun h => ⟨head_path_to_node key h, length_path_to_node key h⟩⟩

/-- Witness for C7 at key 4. -/
theorem claimC7_witness :
    1 ≤ 4 ∧ ((path_to_node 4).head? = some 1 ∧
      (path_to_node 4).length = Nat.log2 4 + 1) :=
  ⟨by decide, (claimC7_path_encoding 4).2.2.2.2.2 (by decide)⟩

/-- Claim C8: after `insert(key, value)`, every node on the descent path
— the root, every intermediate node, and the terminal node that received
the payload — has its cached digest unset, whether pre-existing or fresh. -/
theorem claimC8_path_invalidated (t : TrieNode α) (key : Nat) (v : α) :
    pathCleared (insert t key v) ((path_to_node key).reverse) = true := by
  rw [insert_eq_insertPath]
  exact pathCleared_insertPath v _ t (reverse_path_ne_nil key)

/-- Claim C9: all four public operations are total — the per-character
parse in `path_to_node`, the index arithmetic and child indexing of
`find_by_key`, the two-element hash-list accesses of `merkle_root` and
the `unwrap` of the just-ensured child in `insert_recurse` never fail:
each checked variant returns `some` of the total model's result on every
input. -/
theorem claimC9_totality (toStr : α → String) (H : String → String)
    (t : TrieNode α) (key : Nat) (v : α) :
    path_to_node_checked key = some (path_to_node key) ∧
    find_by_key_checked t key = some (find_by_key t key) ∧
    insertChecked t key v = some (insert t key v) ∧
    merkleRootChecked toStr H t = some (merkle_root toStr H t) :=
  ⟨path_to_node_checked_eq key, find_by_key_checked_eq t key,
    insertChecked_eq t key v, merkleRootChecked_eq toStr H t⟩

/-- Claim C10, as stated for every tree, is false in its "Some of the
correct digest" part: on a tree whose left child carries the stale cached
digest "stale" (its correct digest is `H "" = ""` under the identity
hash), `merkle_root` trusts the stale child cache and writes the root
cache — previously `none` — to `some "stale"`, although the correct
digest of the root's current content is `""`, not `"stale"`. -/
theorem claimC10_counterexample :
    (node none (some (node none none none (some "stale"))) none none
        : TrieNode String).cache = none ∧
    ((merkle_root (id : String → String) (id : String → String)
        (node none (some (node none none none (some "stale"))) none none
          : TrieNode String)).2).cache = some "stale" ∧
    specRoot (id : String → String) (id : String → String)
        (node none (some (node none none none (some "stale"))) none none
          : TrieNode String) ≠ "stale" := by
  refine ⟨rfl, ?_, ?_⟩
  · rw [merkle_root_inner (id : String → String) (id : String → String) none
      (some (node none none none (some "stale"))) none (Or.inl (by simp))]
    simp [merkleChild_some, merkleChild_none, merkle_root_cached, cache]
  · simp [specRoot_node, specChild]

/-- Claim C10, amended: for EVERY tree, `merkle_root` changes no payload
and no parent-child structure (`stripCache` is preserved) and changes
caches only from `none` to `some` (`cacheLe`) — unconditionally; and
whenever every pre-existing cache is correct (the cache-validity
invariant, which holds in all reachable states), every cache it writes is
the correct digest: the updated tree is again cache-valid. -/
theorem claimC10_amended (toStr : α → String) (H : String → String)
    (t : TrieNode α) :
    stripCache (merkle_root toStr H t).2 = stripCache t ∧
    cacheLe t (merkle_root toStr H t).2 ∧
    (cacheOk toStr H t = true →
      cacheOk toStr H (merkle_root toStr H t).2 = true) :=
  ⟨(merkle_root_main toStr H t).2.1, (merkle_root_main toStr H t).2.2.1,
    fun h => ((merkle_root_main toStr H t).2.2.2.2 h).2⟩

/-- Witness for C10: the empty tree is cache-valid, so the written cache
is correct there. -/
theorem claimC10_witness :
    cacheOk (id : String → String) (id : String → String) (new : TrieNode String) = true ∧
    (stripCache (merkle_root (id : String → String) (id : String → String)
        (new : TrieNode String)).2 = stripCache (new : TrieNode String) ∧
      cacheLe (new : TrieNode String)
        (merkle_root (id : String → String) (id : String → String)
          (new : TrieNode String)).2 ∧
      cacheOk (id : String → String) (id : String → String)
        (merkle_root (id : String → String) (id : String → String)
          (new : TrieNode String)).2 = true) := by
  have h : cacheOk (id : String → String) (id : String → String)
      (new : TrieNode String) = true := by
    simp [cacheOk, cacheOkChild, new]
  obtain ⟨h1, h2, h3⟩ :=
    claimC10_amended (id : String → String) (id : String → String) (new : TrieNode String)
  exact ⟨h, h1, h2, h3 h⟩

end TrieNode

end RustTrie
